import Mathlib

/-!
Verification of `src/Prepaid_Electricity_Life_Estimator.py` against its
natural-language specification.

The Python program is shallowly embedded over the exact rationals `ℚ`:
every arithmetic operation of the source is mirrored by the corresponding
exact `ℚ` operation, `while` loops become fuel-indexed structural
recursions (the fuel is chosen generously; fuel-insensitivity above the
loop's actual iteration count is proved where a claim needs it), and the
floating-point constant `math.sqrt(5)` is embedded as the exact rational
value of the IEEE-754 double it denotes.
-/

/-! ## Sample input data (source lines 6-22) -/

def BALANCE_GHS : ℚ := 50
def COST_PER_KWH : ℚ := 1.6

def APPLIANCES : List (String × ℚ × ℚ) :=
  [("Fan", 70, 8), ("Fridge", 200, 24), ("Bulb", 10, 6), ("TV", 100, 5)]

def HISTORICAL_DAYS : List ℚ := [1, 2, 3, 4, 5]
def HISTORICAL_USAGE : List ℚ := [5.8, 6.0, 6.1, 6.3, 6.4]

-- `HISTORICAL_DAYS[-3:]` / `HISTORICAL_USAGE[-3:]`: the last three elements.
def x_used : List ℚ := HISTORICAL_DAYS.drop (HISTORICAL_DAYS.length - 3)
def y_used : List ℚ := HISTORICAL_USAGE.drop (HISTORICAL_USAGE.length - 3)

/-! ## Numerical Method 1: daily kWh aggregation (source lines 25-28) -/

-- `sum((power * hours) / 1000 for _, power, hours in appliances)`:
-- Python's `sum` is a left fold starting from `0`.
def compute_daily_kwh (appliances : List (String × ℚ × ℚ)) : ℚ :=
  appliances.foldl (fun acc a => acc + a.2.1 * a.2.2 / 1000) 0

/-! ## Numerical Method 2: Newton divided differences (source lines 31-50) -/

-- Python's `round(q, 2)`: round to the nearest multiple of 1/100,
-- ties to the even multiple (banker's rounding).
def round_half_even (s : ℚ) : ℤ :=
  if s - ⌊s⌋ < 1/2 then ⌊s⌋
  else if 1/2 < s - ⌊s⌋ then ⌊s⌋ + 1
  else if ⌊s⌋ % 2 = 0 then ⌊s⌋ else ⌊s⌋ + 1

def roundTo2 (q : ℚ) : ℚ := (round_half_even (100 * q) : ℚ) / 100

-- One assignment of the inner loop body (source line 40):
-- `coef[i] = (coef[i] - coef[i-1]) / (x[i] - x[i-j])`.
def nddStep (x : List ℚ) (j : ℕ) (c : List ℚ) (i : ℕ) : List ℚ :=
  c.set i ((c.getD i 0 - c.getD (i - 1) 0) / (x.getD i 0 - x.getD (i - j) 0))

-- `for i in range(n-1, j-1, -1)`: with `m + 1` steps left the current
-- index is `j + m`, so indices are visited in the order n-1, n-2, ..., j.
def nddPass (x : List ℚ) (j : ℕ) : ℕ → List ℚ → List ℚ
  | 0, c => c
  | m + 1, c => nddPass x j m (nddStep x j c (j + m))

-- `for j in range(1, n)`: `p` passes remain, the current pass is `j`.
def nddPasses (x : List ℚ) (n : ℕ) : ℕ → ℕ → List ℚ → List ℚ
  | 0, _, c => c
  | p + 1, j, c => nddPasses x n p (j + 1) (nddPass x j (n - j) c)

-- `newton_divided_diff(x, y)` (source lines 31-41): `coef = list(y)`,
-- then passes j = 1, ..., n-1 over the table.
def newton_divided_diff (x y : List ℚ) : List ℚ :=
  nddPasses x x.length (x.length - 1) 1 y

-- `for i in range(n-2, -1, -1): result = result*(target_x - x_data[i]) + coef[i]`:
-- with `m + 1` steps left the current index is `m`.
def hornerAux (coef x : List ℚ) (t : ℚ) : ℕ → ℚ → ℚ
  | 0, r => r
  | m + 1, r => hornerAux coef x t m (r * (t - x.getD m 0) + coef.getD m 0)

-- The Horner value of `newton_interpolation` before clamping/rounding
-- (source lines 45-49): `result = coef[-1]`, then the descending loop.
def hornerEval (x y : List ℚ) (t : ℚ) : ℚ :=
  hornerAux (newton_divided_diff x y) x t ((newton_divided_diff x y).length - 1)
    ((newton_divided_diff x y).getD ((newton_divided_diff x y).length - 1) 0)

-- `return max(0, round(result, 2))` (source line 50).
def newton_interpolation (x y : List ℚ) (t : ℚ) : ℚ :=
  max 0 (roundTo2 (hornerEval x y t))

-- `[newton_interpolation(x_used, y_used, d) for d in range(6, 11)]` (line 88).
def forecasted_usage : List ℚ :=
  (List.range 5).map (fun k => newton_interpolation x_used y_used (6 + (k : ℚ)))

/-! ## Numerical Method 3: bisection root finding (source lines 53-66) -/

-- The `while b - a > tol` loop with `tol = 0.01`, as a fuel-indexed
-- recursion on the bracket `(a, b)`.  With enough fuel the recursion
-- always exits through the loop condition (proved below), so the fuel
-- is only a termination device, not part of the source's semantics.
def bisectLoop (f : ℚ → ℚ) : ℕ → ℚ → ℚ → ℚ × ℚ
  | 0, a, b => (a, b)
  | fuel + 1, a, b =>
    if b - a > 1/100 then
      if f ((a + b) / 2) * f a < 0 then bisectLoop f fuel a ((a + b) / 2)
      else bisectLoop f fuel ((a + b) / 2) b
    else (a, b)

-- Fuel bound: for `md > 0` we have `100 * md ≤ (100 * md).num` and
-- `n < 2 ^ (n.log2 + 1)`, so `md / 2 ^ bisFuel md ≤ 1/100`: the loop
-- condition must fail before the fuel runs out.
def bisFuel (md : ℚ) : ℕ := (100 * md).num.toNat.log2 + 1

-- `estimate_days_remaining(balance_ghs, daily_cost_func, max_days=30)`.
def estimate_days_remaining (balance : ℚ) (cost : ℚ → ℚ) (md : ℚ := 30) : ℚ :=
  ((bisectLoop (fun t => balance - cost t) (bisFuel md) 0 md).1 +
   (bisectLoop (fun t => balance - cost t) (bisFuel md) 0 md).2) / 2

/-! ## Numerical Method 4: golden-section search (source lines 69-81) -/

-- `math.sqrt(5)`: the exact rational value of the IEEE-754 double
-- nearest to the square root of 5.
def sqrt5 : ℚ := 629397181890197 / 281474976710656

-- `gr = (math.sqrt(5) + 1) / 2` (exact: the sum and halving are
-- representable in double precision, so no further rounding occurs).
def gr : ℚ := (sqrt5 + 1) / 2

-- The `while abs(c - d) > tol` loop with `tol = 1e-2`; `c` and `d` are
-- recomputed from the current bracket exactly as at the end of each
-- Python iteration (and before the first one).
def gssLoop (f : ℚ → ℚ) : ℕ → ℚ → ℚ → ℚ × ℚ
  | 0, a, b => (a, b)
  | fuel + 1, a, b =>
    if |(b - (b - a) / gr) - (a + (b - a) / gr)| > 1/100 then
      if f (b - (b - a) / gr) < f (a + (b - a) / gr) then
        gssLoop f fuel a (a + (b - a) / gr)
      else gssLoop f fuel (b - (b - a) / gr) b
    else (a, b)

-- Two iterations shrink the bracket by `gr ^ 2 > 2`, so twice the
-- number of halvings used for `bisFuel` is enough fuel.
def gssFuel (a b : ℚ) : ℕ := 2 * ((100 * (b - a)).num.toNat.log2 + 1)

def golden_section_search (f : ℚ → ℚ) (a b : ℚ) : ℚ :=
  ((gssLoop f (gssFuel a b) a b).2 + (gssLoop f (gssFuel a b) a b).1) / 2

/-! ## Module-level pipeline (source lines 84-101) -/

def daily_kwh : ℚ := compute_daily_kwh APPLIANCES

def daily_cost : ℚ := daily_kwh * COST_PER_KWH

def cumulative_cost (t : ℚ) : ℚ := daily_cost * t

def estimated_days : ℚ := estimate_days_remaining BALANCE_GHS cumulative_cost

def reduction_to_life (r : ℚ) : ℚ :=
  -BALANCE_GHS / (daily_kwh * (1 - r) * COST_PER_KWH)

def optimal_reduction : ℚ := golden_section_search reduction_to_life 0 0.5

/-! ## Spec-only model for the error taxonomy (spec sections 4.1 and 7) -/

/-- Modelled from the spec: the source has no validation at all, while the
spec demands an `InvalidAppliance` failure for negative or non-finite power
or hours.  This definition follows the spec's words (non-finiteness is not
representable in `ℚ`, so only the sign checks appear). -/
def compute_daily_kwh_spec (appliances : List (String × ℚ × ℚ)) : Except String ℚ :=
  if appliances.all (fun a => decide (0 ≤ a.2.1) && decide (0 ≤ a.2.2)) then
    Except.ok ((appliances.map (fun a => a.2.1 * a.2.2 / 1000)).sum)
  else Except.error "InvalidAppliance"

/-! ## Generic helper lemmas -/

lemma getD_set_self {l : List ℚ} {i : ℕ} (h : i < l.length) (v : ℚ) :
    (l.set i v).getD i 0 = v := by
  simp [List.getD_eq_getElem?_getD, List.getElem?_set_self h]

lemma getD_set_ne {l : List ℚ} {i j : ℕ} (h : i ≠ j) (v : ℚ) :
    (l.set i v).getD j 0 = l.getD j 0 := by
  simp [List.getD_eq_getElem?_getD, List.getElem?_set_ne h]

lemma rat_le_num {q : ℚ} (h : 0 < q) : q ≤ (q.num : ℚ) := by
  conv_lhs => rw [← Rat.num_div_den q]
  apply div_le_self
  · exact_mod_cast (Rat.num_pos.mpr h).le
  · exact_mod_cast q.pos

lemma lt_pow_log2_succ (n : ℕ) : (n : ℚ) < 2 ^ (n.log2 + 1) := by
  have h := Nat.lt_pow_succ_log_self (b := 2) (by norm_num) n
  rw [← Nat.log2_eq_log_two] at h
  exact_mod_cast h

lemma lt_two_pow_num {q : ℚ} (h : 0 < q) : q < 2 ^ (q.num.toNat.log2 + 1) := by
  have h1 : q ≤ (q.num : ℚ) := rat_le_num h
  have h2 : ((q.num.toNat : ℕ) : ℚ) = (q.num : ℚ) := by
    have := Int.toNat_of_nonneg (Rat.num_pos.mpr h).le
    exact_mod_cast congrArg (fun z : ℤ => (z : ℚ)) this
  calc q ≤ (q.num : ℚ) := h1
    _ = (q.num.toNat : ℚ) := h2.symm
    _ < 2 ^ (q.num.toNat.log2 + 1) := lt_pow_log2_succ _

lemma bisFuel_spec {md : ℚ} (h : 0 < md) : md / 2 ^ bisFuel md ≤ 1/100 := by
  have h100 : (0:ℚ) < 100 * md := by positivity
  have hlt : 100 * md < 2 ^ bisFuel md := lt_two_pow_num h100
  rw [div_le_iff (by positivity : (0:ℚ) < 2 ^ bisFuel md)]
  linarith

lemma gssFuel_spec {a b : ℚ} (h : a < b) :
    (b - a) / 2 ^ ((100 * (b - a)).num.toNat.log2 + 1) ≤ 1/100 := by
  have h100 : (0:ℚ) < 100 * (b - a) := by linarith
  have hlt : 100 * (b - a) < 2 ^ ((100 * (b - a)).num.toNat.log2 + 1) :=
    lt_two_pow_num h100
  rw [div_le_iff (by positivity : (0:ℚ) < 2 ^ ((100 * (b - a)).num.toNat.log2 + 1))]
  linarith

lemma bisFuel_30 : bisFuel 30 = 12 := by
  have h : (100 * (30:ℚ)).num = 3000 := by norm_num
  rw [bisFuel, h, show (3000:ℤ).toNat = 3000 from rfl]
  norm_num [Nat.log2]

/-! ## Bisection loop lemmas -/

lemma bisectLoop_exit (f : ℚ → ℚ) (fuel : ℕ) {a b : ℚ} (h : ¬(b - a > 1/100)) :
    bisectLoop f fuel a b = (a, b) := by
  cases fuel with
  | zero => rfl
  | succ n => simp only [bisectLoop, if_neg h]

lemma bisectLoop_succ_else (f : ℚ → ℚ) (fuel : ℕ) {a b : ℚ}
    (h1 : b - a > 1/100) (h2 : ¬(f ((a + b) / 2) * f a < 0)) :
    bisectLoop f (fuel + 1) a b = bisectLoop f fuel ((a + b) / 2) b := by
  simp only [bisectLoop, if_pos h1, if_neg h2]

lemma bisectLoop_stable (f : ℚ → ℚ) :
    ∀ (n m : ℕ) (a b : ℚ), (b - a) / 2 ^ n ≤ 1/100 →
      bisectLoop f (n + m) a b = bisectLoop f n a b := by
  intro n
  induction n with
  | zero =>
    intro m a b h
    have h' : ¬(b - a > 1/100) := by push_neg; simpa using h
    rw [Nat.zero_add, bisectLoop_exit f m h', bisectLoop_exit f 0 h']
  | succ n ih =>
    intro m a b h
    by_cases hc : b - a > 1/100
    · have hgap : ∀ u v : ℚ, v - u = (b - a) / 2 → (v - u) / 2 ^ n ≤ 1/100 := by
        intro u v huv
        rw [huv, div_div, ← pow_succ']
        exact h
      rw [show n + 1 + m = (n + m) + 1 by omega]
      by_cases hin : f ((a + b) / 2) * f a < 0
      · simp only [bisectLoop, if_pos hc, if_pos hin]
        exact ih m a ((a + b) / 2) (hgap a _ (by ring))
      · simp only [bisectLoop, if_pos hc, if_neg hin]
        exact ih m ((a + b) / 2) b (hgap _ b (by ring))
    · rw [bisectLoop_exit f _ hc, bisectLoop_exit f _ hc]

lemma bisectLoop_bounds (f : ℚ → ℚ) :
    ∀ (fuel : ℕ) (a b : ℚ), a ≤ b →
      a ≤ (bisectLoop f fuel a b).1 ∧
      (bisectLoop f fuel a b).1 ≤ (bisectLoop f fuel a b).2 ∧
      (bisectLoop f fuel a b).2 ≤ b := by
  intro fuel
  induction fuel with
  | zero => intro a b hab; exact ⟨le_refl a, hab, le_refl b⟩
  | succ n ih =>
    intro a b hab
    by_cases hc : b - a > 1/100
    · have hmidl : a ≤ (a + b) / 2 := by linarith
      have hmidr : (a + b) / 2 ≤ b := by linarith
      by_cases hin : f ((a + b) / 2) * f a < 0
      · simp only [bisectLoop, if_pos hc, if_pos hin]
        obtain ⟨h1, h2, h3⟩ := ih a ((a + b) / 2) hmidl
        exact ⟨h1, h2, h3.trans hmidr⟩
      · simp only [bisectLoop, if_pos hc, if_neg hin]
        obtain ⟨h1, h2, h3⟩ := ih ((a + b) / 2) b hmidr
        exact ⟨hmidl.trans h1, h2, h3⟩
    · rw [bisectLoop_exit f _ hc]; exact ⟨le_refl a, hab, le_refl b⟩

-- For the strictly decreasing affine `f t = B - k * t`, if `B/k` is not a
-- multiple of `30/4096` then no tested midpoint is an exact root, the
-- strict sign change `f a > 0 > f b` is maintained, and the final bracket
-- encloses the root with gap at most the tolerance.  Bracket endpoints
-- are consecutive multiples of `30 / 2 ^ s`; the loop exits once `s = 12`.
lemma bisectLoop_linear (k B : ℚ) (H : ∀ j : ℕ, B ≠ k * (30 * j / 4096)) :
    ∀ (fuel s : ℕ) (a b : ℚ), s ≤ 12 → 12 ≤ s + fuel →
      (∃ i : ℕ, i + 1 ≤ 2 ^ s ∧ a = 30 * (i : ℚ) / 2 ^ s ∧
        b = 30 * ((i : ℚ) + 1) / 2 ^ s) →
      0 < B - k * a → B - k * b < 0 →
      0 < B - k * (bisectLoop (fun t => B - k * t) fuel a b).1 ∧
      B - k * (bisectLoop (fun t => B - k * t) fuel a b).2 < 0 ∧
      (bisectLoop (fun t => B - k * t) fuel a b).2 -
        (bisectLoop (fun t => B - k * t) fuel a b).1 ≤ 1/100 := by
  intro fuel
  induction fuel with
  | zero =>
    intro s a b hs12 hfuel hex hfa hfb
    obtain ⟨i, hi, ha, hb⟩ := hex
    have hs : s = 12 := by omega
    subst hs
    have hba : b - a = 30 / 2 ^ 12 := by rw [ha, hb]; ring
    refine ⟨hfa, hfb, ?_⟩
    simp only [bisectLoop]
    rw [hba]; norm_num
  | succ n ih =>
    intro s a b hs12 hfuel hex hfa hfb
    obtain ⟨i, hi, ha, hb⟩ := hex
    have hba : b - a = 30 / 2 ^ s := by rw [ha, hb]; ring
    by_cases hs : s = 12
    · subst hs
      have hcond : ¬(b - a > 1/100) := by rw [hba]; norm_num
      rw [bisectLoop_exit _ _ hcond]
      refine ⟨hfa, hfb, ?_⟩
      rw [hba]; norm_num
    · have hs11 : s ≤ 11 := by omega
      have h2s : (2:ℚ) ^ s ≤ 2048 := by
        calc (2:ℚ) ^ s ≤ 2 ^ 11 := by gcongr; norm_num
          _ = 2048 := by norm_num
      have hcond : b - a > 1/100 := by
        rw [hba]
        have h1 : (30:ℚ) / 2048 ≤ 30 / 2 ^ s :=
          div_le_div_of_nonneg_left (by norm_num) (by positivity) h2s
        linarith
      have hpow2 : (2:ℕ) ^ (s + 1) = 2 * 2 ^ s := by rw [pow_succ]; ring
      have hmid : (a + b) / 2 = 30 * (((2 * i + 1 : ℕ)) : ℚ) / 2 ^ (s + 1) := by
        rw [ha, hb]; push_cast; ring
      have hpow : (2:ℚ) ^ (11 - s) * 2 ^ (s + 1) = 4096 := by
        rw [← pow_add, show 11 - s + (s + 1) = 12 by omega]
        norm_num
      have hmid4096 :
          (a + b) / 2 = 30 * (((2 * i + 1) * 2 ^ (11 - s) : ℕ) : ℚ) / 4096 := by
        rw [hmid]; push_cast
        rw [div_eq_div_iff (by positivity) (by norm_num)]
        linear_combination (-(30 * (2 * (i:ℚ) + 1))) * hpow
      have hfmid : B - k * ((a + b) / 2) ≠ 0 := by
        rw [hmid4096]
        exact sub_ne_zero.mpr (H ((2 * i + 1) * 2 ^ (11 - s)))
      rcases hfmid.lt_or_lt with hneg | hpos
      · have hprod : (B - k * ((a + b) / 2)) * (B - k * a) < 0 :=
          mul_neg_of_neg_of_pos hneg hfa
        simp only [bisectLoop, if_pos hcond, if_pos hprod]
        apply ih (s + 1) a ((a + b) / 2) (by omega) (by omega)
        · exact ⟨2 * i, by omega, by rw [ha]; push_cast; try ring, by
            rw [hmid]; push_cast; try ring⟩
        · exact hfa
        · exact hneg
      · have hprod : ¬((B - k * ((a + b) / 2)) * (B - k * a) < 0) :=
          not_lt.mpr (mul_pos hpos hfa).le
        simp only [bisectLoop, if_pos hcond, if_neg hprod]
        apply ih (s + 1) ((a + b) / 2) b (by omega) (by omega)
        · exact ⟨2 * i + 1, by omega, hmid, by rw [hb]; push_cast; try ring⟩
        · exact hpos
        · exact hfb

-- When `f` has no sign change on `[a, b]`, every test
-- `f(mid) * f(a) < 0` fails, so the loop always moves `a` to the
-- midpoint: the bracket collapses onto the upper endpoint `b`.
lemma bisectLoop_drift (f : ℚ → ℚ) :
    ∀ (fuel : ℕ) (a b : ℚ), a ≤ b →
      (∀ s t, a ≤ s → s ≤ b → a ≤ t → t ≤ b → ¬(f s * f t < 0)) →
      (b - a) / 2 ^ fuel ≤ 1/100 →
      (bisectLoop f fuel a b).2 = b ∧ b - (bisectLoop f fuel a b).1 ≤ 1/100 := by
  intro fuel
  induction fuel with
  | zero =>
    intro a b hab hsig h
    simpa using ⟨rfl, by simpa using h⟩
  | succ n ih =>
    intro a b hab hsig h
    by_cases hc : b - a > 1/100
    · have hmidl : a ≤ (a + b) / 2 := by linarith
      have hmidr : (a + b) / 2 ≤ b := by linarith
      have hin : ¬(f ((a + b) / 2) * f a < 0) :=
        hsig _ _ hmidl hmidr (le_refl a) hab
      simp only [bisectLoop, if_pos hc, if_neg hin]
      apply ih ((a + b) / 2) b hmidr
      · intro s t hs1 hs2 ht1 ht2
        exact hsig s t (hmidl.trans hs1) hs2 (hmidl.trans ht1) ht2
      · have : b - (a + b) / 2 = (b - a) / 2 := by ring
        rw [this, div_div, ← pow_succ']
        exact h
    · rw [bisectLoop_exit f _ hc]
      push_neg at hc
      exact ⟨rfl, hc⟩


lemma estimate_days_remaining_def (balance : ℚ) (cost : ℚ → ℚ) (md : ℚ) :
    estimate_days_remaining balance cost md =
      ((bisectLoop (fun t => balance - cost t) (bisFuel md) 0 md).1 +
       (bisectLoop (fun t => balance - cost t) (bisFuel md) 0 md).2) / 2 := rfl

-- Root bracketing for a linear cost `cost t = k * t` whose root `B / k`
-- is never hit exactly by a tested midpoint.
lemma estimate_days_linear (k B : ℚ) (hk : 0 < k) (h0 : 0 < B / k) (h30 : B / k < 30)
    (H : ∀ j : ℕ, B ≠ k * (30 * j / 4096)) :
    |estimate_days_remaining B (fun t => k * t) 30 - B / k| ≤ 1/100 := by
  have hB : 0 < B := by
    have h := mul_pos h0 hk
    rwa [div_mul_cancel₀ _ (ne_of_gt hk)] at h
  have hfb : B - k * 30 < 0 := by
    have h := (div_lt_iff hk).mp h30
    linarith [mul_comm k (30:ℚ)]
  obtain ⟨h1, h2, h3⟩ := bisectLoop_linear k B H (bisFuel 30) 0 0 30
    (by norm_num) (by rw [bisFuel_30]) ⟨0, by norm_num, by norm_num, by norm_num⟩
    (by simpa using hB) hfb
  rw [estimate_days_remaining_def]
  have heq : (fun t => B - (fun t => k * t) t) = fun t => B - k * t := rfl
  rw [heq]
  have hr1 : (bisectLoop (fun t => B - k * t) (bisFuel 30) 0 30).1 < B / k := by
    rw [lt_div_iff hk]
    nlinarith [h1]
  have hr2 : B / k < (bisectLoop (fun t => B - k * t) (bisFuel 30) 0 30).2 := by
    rw [div_lt_iff hk]
    nlinarith [h2]
  rw [abs_le]
  constructor <;> linarith

-- No root in range: the returned value sits within the tolerance of the
-- upper endpoint `max_days`, not near the lower endpoint.
lemma estimate_days_drift (balance md : ℚ) (cost : ℚ → ℚ) (hmd : 0 < md)
    (hnoroot : ∀ t, 0 ≤ t → t ≤ md → cost t < balance) :
    md - 1/100 ≤ estimate_days_remaining balance cost md ∧
    estimate_days_remaining balance cost md ≤ md := by
  rw [estimate_days_remaining_def]
  obtain ⟨h2, h1⟩ := bisectLoop_drift (fun t => balance - cost t) (bisFuel md) 0 md
    hmd.le
    (fun s t hs1 hs2 ht1 ht2 => by
      have hs := hnoroot s hs1 hs2
      have ht := hnoroot t ht1 ht2
      exact not_lt.mpr (mul_pos
        (by show 0 < balance - cost s; linarith)
        (by show 0 < balance - cost t; linarith)).le)
    (by simpa using bisFuel_spec hmd)
  obtain ⟨hb1, hb2, hb3⟩ :=
    bisectLoop_bounds (fun t => balance - cost t) (bisFuel md) 0 md hmd.le
  constructor <;> linarith

/-! ## Claim C2: bisection root-finding on a linear cost function -/

/-- C2: for `k > 0` and `0 < B/k < max_days = 30`, `estimate_days_remaining`
applied to balance `B` and the cost function `cost t = k * t` returns a value
within `0.01` of `B / k` — as amended: this holds provided the root `B / k` is
not a multiple of `30 / 4096` (equivalently, no tested midpoint of the
bisection is an exact root of `f`); the counterexample shows the claim fails
without that proviso because of the strict `f(mid) * f(a) < 0` test. -/
theorem claim_C2 (k B : ℚ) (hk : 0 < k) (h0 : 0 < B / k) (h30 : B / k < 30)
    (H : ∀ j : ℕ, B ≠ k * (30 * j / 4096)) :
    |estimate_days_remaining B (fun t => k * t) 30 - B / k| ≤ 1/100 :=
  estimate_days_linear k B hk h0 h30 H

/-- Witness for C2 at `k = 1`, `B = 7`: the root `7` is not a multiple of
`30/4096` since `4096 * 7 = 28672` is not divisible by `30`. -/
theorem claim_C2_witness :
    (0:ℚ) < 1 ∧ (0:ℚ) < 7 / 1 ∧ (7:ℚ) / 1 < 30 ∧
    |estimate_days_remaining 7 (fun t => 1 * t) 30 - 7 / 1| ≤ 1/100 :=
  ⟨by norm_num, by norm_num, by norm_num,
    claim_C2 1 7 (by norm_num) (by norm_num) (by norm_num) (by
      intro j h
      have h2 : (28672:ℚ) = 30 * (j:ℚ) := by field_simp at h; linarith
      have h3 : (28672:ℕ) = 30 * j := by exact_mod_cast h2
      omega)⟩

/-- Counterexample for C2 as stated: with `k = 1`, `B = 15` (so `B/k = 15`
lies strictly inside `(0, 30)`), the very first midpoint is the exact root,
the strict sign test `f(15) * f(0) < 0` fails, and the loop then collapses
onto the upper endpoint: the result is at least `29.99`, more than `14` away
from the root instead of within `0.01`. -/
theorem claim_C2_cex :
    2999/100 ≤ estimate_days_remaining 15 (fun t => 1 * t) 30 ∧
    ¬(|estimate_days_remaining 15 (fun t => 1 * t) 30 - 15 / 1| ≤ 1/100) := by
  have key : 2999/100 ≤ estimate_days_remaining 15 (fun t => 1 * t) 30 := by
    rw [estimate_days_remaining_def, bisFuel_30]
    have hstep : bisectLoop (fun t => 15 - 1 * t) 12 0 30 =
        bisectLoop (fun t => 15 - 1 * t) 11 15 30 := by
      rw [show (12:ℕ) = 11 + 1 from rfl,
        bisectLoop_succ_else _ _ (by norm_num)
          (by show ¬((15 - 1 * (((0:ℚ) + 30) / 2)) * (15 - 1 * 0) < 0); norm_num),
        show ((0:ℚ) + 30) / 2 = 15 by norm_num]
    rw [hstep]
    obtain ⟨h2, h1⟩ := bisectLoop_drift (fun t => 15 - 1 * t) 11 15 30
      (by norm_num)
      (fun s t hs1 hs2 ht1 ht2 => by
        show ¬((15 - 1 * s) * (15 - 1 * t) < 0)
        push_neg
        nlinarith)
      (by norm_num)
    linarith
  refine ⟨key, fun habs => ?_⟩
  obtain ⟨hl, hr⟩ := abs_le.mp habs
  linarith

/-! ## Claim C4: the end-to-end scenario numbers -/

/-- C4 as amended: with the sample appliances, cost 1.6 GHS/kWh and balance
50, the pipeline yields `daily_kwh = 5.92` (not ≈ 6.12),
`daily_cost = 9.472` (not ≈ 9.79), and `estimated_days` within `0.01` of
`50 / 9.472 = 3125/592 ≈ 5.28` (not ≈ 5.1). -/
theorem claim_C4 :
    daily_kwh = 148/25 ∧ daily_cost = 1184/125 ∧
    |estimated_days - 3125/592| ≤ 1/100 := by
  have hkwh : daily_kwh = 148/25 := by
    norm_num [daily_kwh, compute_daily_kwh, APPLIANCES]
  have hcost : daily_cost = 1184/125 := by
    rw [daily_cost, hkwh, COST_PER_KWH]
    norm_num
  refine ⟨hkwh, hcost, ?_⟩
  have hfun : estimated_days = estimate_days_remaining 50 (fun t => 1184/125 * t) 30 := by
    rw [estimated_days,
      show cumulative_cost = (fun t => (1184:ℚ)/125 * t) from
        funext fun t => by rw [cumulative_cost, hcost],
      show BALANCE_GHS = 50 from rfl]
  rw [hfun]
  have h := estimate_days_linear (1184/125) 50 (by norm_num) (by norm_num)
    (by norm_num) (by
      intro j h
      have h2 : (25600000:ℚ) = 35520 * (j:ℚ) := by field_simp at h; linarith
      have h3 : (25600000:ℕ) = 35520 * j := by exact_mod_cast h2
      omega)
  rw [show (50:ℚ) / (1184/125) = 3125/592 by norm_num] at h
  exact h

/-- Counterexample for C4 as stated: the aggregated daily energy is
`5.92` kWh, which differs from the claimed `≈ 6.12` by `0.2`. -/
theorem claim_C4_cex :
    daily_kwh = 148/25 ∧ ¬(|daily_kwh - 6.12| ≤ 1/10) := by
  have hkwh : daily_kwh = 148/25 := by
    norm_num [daily_kwh, compute_daily_kwh, APPLIANCES]
  refine ⟨hkwh, fun habs => ?_⟩
  rw [hkwh] at habs
  obtain ⟨hl, hr⟩ := abs_le.mp habs
  norm_num at hl

/-! ## Claim C7: behaviour when no sign change exists -/

/-- C7 as amended: when the balance is never exhausted on `[0, max_days]`
(no sign change of `f`), the loop indeed keeps bisecting regardless of sign,
but every step moves the lower endpoint to the midpoint, so the returned
midpoint ends up within the tolerance of the UPPER endpoint `max_days` —
near `b`, not near the lower endpoint `a = 0` as the claim states. -/
theorem claim_C7 (balance md : ℚ) (cost : ℚ → ℚ) (hmd : 0 < md)
    (hnoroot : ∀ t, 0 ≤ t → t ≤ md → cost t < balance) :
    md - 1/100 ≤ estimate_days_remaining balance cost md ∧
    estimate_days_remaining balance cost md ≤ md :=
  estimate_days_drift balance md cost hmd hnoroot

/-- Witness for C7: balance 1000 is never exhausted by `cost t = t` within
30 days; the result lies in `[29.99, 30]`. -/
theorem claim_C7_witness :
    (0:ℚ) < 30 ∧
    (30 - 1/100 ≤ estimate_days_remaining 1000 (fun t => t) 30 ∧
     estimate_days_remaining 1000 (fun t => t) 30 ≤ 30) :=
  ⟨by norm_num,
   claim_C7 1000 30 (fun t => t) (by norm_num) (fun t h1 h2 => by linarith)⟩

/-- Counterexample for C7 as stated: with balance 1000, `cost t = t` and
`max_days = 30` there is no sign change, and the returned value is at least
`29.99` — it is not near the lower endpoint `0` (it is not even in the lower
half of the interval). -/
theorem claim_C7_cex :
    2999/100 ≤ estimate_days_remaining 1000 (fun t => t) 30 ∧
    ¬(estimate_days_remaining 1000 (fun t => t) 30 ≤ 15) := by
  obtain ⟨h1, h2⟩ := estimate_days_drift 1000 30 (fun t => t) (by norm_num)
    (fun t ht1 ht2 => by linarith)
  exact ⟨by linarith, fun h => by linarith⟩

/-! ## Claim C10: the result always lies in `[0, max_days]` -/

/-- C10: for every balance, every cost function and every `max_days > 0`,
the value returned by `estimate_days_remaining` lies in `[0, max_days]`:
each bisection step keeps the bracket inside the initial interval. -/
theorem claim_C10 (balance : ℚ) (cost : ℚ → ℚ) (md : ℚ) (hmd : 0 < md) :
    0 ≤ estimate_days_remaining balance cost md ∧
    estimate_days_remaining balance cost md ≤ md := by
  rw [estimate_days_remaining_def]
  obtain ⟨hb1, hb2, hb3⟩ :=
    bisectLoop_bounds (fun t => balance - cost t) (bisFuel md) 0 md hmd.le
  constructor <;> linarith

/-- Witness for C10 at balance 50, `cost t = 9 * t`, `max_days = 30`. -/
theorem claim_C10_witness :
    (0:ℚ) < 30 ∧
    (0 ≤ estimate_days_remaining 50 (fun t => 9 * t) 30 ∧
     estimate_days_remaining 50 (fun t => 9 * t) 30 ≤ 30) :=
  ⟨by norm_num, claim_C10 50 (fun t => 9 * t) 30 (by norm_num)⟩

/-! ## Claims C1, C8: the aggregator and its (absent) validation -/

lemma compute_daily_kwh_eq_sum (l : List (String × ℚ × ℚ)) :
    compute_daily_kwh l = (l.map (fun a => a.2.1 * a.2.2 / 1000)).sum := by
  have key : ∀ (l : List (String × ℚ × ℚ)) (acc : ℚ),
      l.foldl (fun acc a => acc + a.2.1 * a.2.2 / 1000) acc =
        acc + (l.map (fun a => a.2.1 * a.2.2 / 1000)).sum := by
    intro l
    induction l with
    | nil => intro acc; simp
    | cons hd tl ih =>
      intro acc
      simp only [List.foldl_cons, List.map_cons, List.sum_cons, ih]
      ring
  rw [compute_daily_kwh, key]
  ring

/-- C1: for every appliance list, `compute_daily_kwh` returns exactly the
sum over all entries of `power_watts * hours_per_day / 1000`, and it
returns `0` for the empty sequence. -/
theorem claim_C1 :
    (∀ l : List (String × ℚ × ℚ),
      compute_daily_kwh l = (l.map (fun a => a.2.1 * a.2.2 / 1000)).sum) ∧
    compute_daily_kwh [] = 0 :=
  ⟨compute_daily_kwh_eq_sum, rfl⟩

/-- C8 as amended: `compute_daily_kwh` performs no validation at all and has
no error conditions — it returns the plain sum for every input, including an
appliance with negative power (where the spec-modelled checker
`compute_daily_kwh_spec` signals `InvalidAppliance` instead); whenever the
spec-modelled checker does not signal an error it agrees with the code. -/
theorem claim_C8 :
    compute_daily_kwh [("X", -5, 3)] = -(3/200) ∧
    (∀ l : List (String × ℚ × ℚ),
      compute_daily_kwh_spec l = Except.error "InvalidAppliance" ∨
      compute_daily_kwh_spec l = Except.ok (compute_daily_kwh l)) := by
  constructor
  · norm_num [compute_daily_kwh]
  · intro l
    by_cases h : (l.all (fun a => decide (0 ≤ a.2.1) && decide (0 ≤ a.2.2)) : Bool)
    · right
      simp [compute_daily_kwh_spec, h, compute_daily_kwh_eq_sum]
    · left
      simp [compute_daily_kwh_spec, h]

/-- Counterexample for C8 as stated: on an appliance with negative power the
code does not fail — it returns the value `-3/200` — while the claimed
`InvalidAppliance` behaviour (modelled from the spec) would signal an error. -/
theorem claim_C8_cex :
    compute_daily_kwh [("X", -5, 3)] = -(3/200) ∧
    compute_daily_kwh_spec [("X", -5, 3)] = Except.error "InvalidAppliance" := by
  constructor
  · norm_num [compute_daily_kwh]
  · rfl

/-! ## Claim C6: interpolation output is clamped and 2-decimal rounded -/

/-- C6: for every input data set and every target, `newton_interpolation`
returns a non-negative value (clamped at 0) that is an integer multiple of
`1/100` (rounded to 2 decimal digits). -/
theorem claim_C6 (x y : List ℚ) (t : ℚ) :
    0 ≤ newton_interpolation x y t ∧
    ∃ m : ℤ, newton_interpolation x y t = (m : ℚ) / 100 := by
  constructor
  · exact le_max_left 0 _
  · rw [newton_interpolation, roundTo2]
    rcases le_or_lt ((round_half_even (100 * hornerEval x y t) : ℚ) / 100) 0 with h | h
    · exact ⟨0, by rw [max_eq_left h]; norm_num⟩
    · exact ⟨round_half_even (100 * hornerEval x y t), max_eq_right h.le⟩

/-! ## Golden-section loop lemmas (claim C9) -/

lemma gr_pos : (0:ℚ) < gr := by norm_num [gr, sqrt5]

lemma one_lt_gr : (1:ℚ) < gr := by norm_num [gr, sqrt5]

lemma gr_lt_two : gr < 2 := by norm_num [gr, sqrt5]

lemma two_lt_gr_sq : (2:ℚ) < gr ^ 2 := by norm_num [gr, sqrt5]

lemma gssLoop_exit (f : ℚ → ℚ) (fuel : ℕ) {a b : ℚ}
    (h : ¬(|(b - (b - a) / gr) - (a + (b - a) / gr)| > 1/100)) :
    gssLoop f fuel a b = (a, b) := by
  cases fuel with
  | zero => rfl
  | succ n => simp only [gssLoop, if_neg h]

-- The bracket after one non-exiting iteration: shrink toward the
-- lower-valued interior point, exactly as in the loop body.
def gssNext (f : ℚ → ℚ) (a b : ℚ) : ℚ × ℚ :=
  if f (b - (b - a) / gr) < f (a + (b - a) / gr) then (a, a + (b - a) / gr)
  else (b - (b - a) / gr, b)

lemma gssLoop_succ (f : ℚ → ℚ) (fuel : ℕ) {a b : ℚ}
    (h : |(b - (b - a) / gr) - (a + (b - a) / gr)| > 1/100) :
    gssLoop f (fuel + 1) a b = gssLoop f fuel (gssNext f a b).1 (gssNext f a b).2 := by
  by_cases hf : f (b - (b - a) / gr) < f (a + (b - a) / gr)
  · simp only [gssLoop, gssNext, if_pos h, if_pos hf]
  · simp only [gssLoop, gssNext, if_pos h, if_neg hf]

lemma gssNext_width (f : ℚ → ℚ) (a b : ℚ) :
    (gssNext f a b).2 - (gssNext f a b).1 = (b - a) / gr := by
  rw [gssNext]
  split <;> simp only [] <;> ring

lemma gssNext_le (f : ℚ → ℚ) {a b : ℚ} (hab : a ≤ b) :
    (gssNext f a b).1 ≤ (gssNext f a b).2 := by
  have h := gssNext_width f a b
  have h0 : 0 ≤ (b - a) / gr := div_nonneg (by linarith) gr_pos.le
  linarith

lemma gss_cd_abs {a b : ℚ} (hab : a ≤ b) :
    |(b - (b - a) / gr) - (a + (b - a) / gr)| ≤ b - a := by
  have hne : gr ≠ 0 := ne_of_gt gr_pos
  have h2 : (b - (b - a) / gr) - (a + (b - a) / gr) = (b - a) * (1 - 2 / gr) := by
    field_simp
    ring
  rw [h2, abs_mul]
  have h3 : |1 - 2 / gr| ≤ 1 := by
    rw [abs_le]
    have hd2 : 2 / gr ≤ 2 := by
      rw [div_le_iff gr_pos]
      nlinarith [one_lt_gr]
    have hd0 : 0 ≤ 2 / gr := div_nonneg (by norm_num) gr_pos.le
    constructor <;> linarith
  calc |b - a| * |1 - 2 / gr| ≤ |b - a| * 1 :=
        mul_le_mul_of_nonneg_left h3 (abs_nonneg _)
    _ = b - a := by rw [mul_one, abs_of_nonneg (by linarith)]

lemma gssLoop_stable (f : ℚ → ℚ) :
    ∀ (K m : ℕ) (a b : ℚ), a ≤ b → (b - a) / 2 ^ K ≤ 1/100 →
      gssLoop f (2 * K + m) a b = gssLoop f (2 * K) a b := by
  intro K
  induction K with
  | zero =>
    intro m a b hab h
    have hba : b - a ≤ 1/100 := by simpa using h
    have hcd : ¬(|(b - (b - a) / gr) - (a + (b - a) / gr)| > 1/100) := by
      push_neg
      exact (gss_cd_abs hab).trans hba
    rw [Nat.mul_zero, Nat.zero_add, gssLoop_exit f m hcd, gssLoop_exit f 0 hcd]
  | succ K ih =>
    intro m a b hab h
    by_cases hc1 : |(b - (b - a) / gr) - (a + (b - a) / gr)| > 1/100
    · rw [show 2 * (K + 1) + m = (2 * K + 1 + m) + 1 by ring,
          show 2 * (K + 1) = (2 * K + 1) + 1 by ring,
          gssLoop_succ f _ hc1, gssLoop_succ f _ hc1]
      have hw1 : (gssNext f a b).2 - (gssNext f a b).1 = (b - a) / gr :=
        gssNext_width f a b
      have hab1 : (gssNext f a b).1 ≤ (gssNext f a b).2 := gssNext_le f hab
      by_cases hc2 : |((gssNext f a b).2 - ((gssNext f a b).2 - (gssNext f a b).1) / gr) -
          ((gssNext f a b).1 + ((gssNext f a b).2 - (gssNext f a b).1) / gr)| > 1/100
      · rw [show 2 * K + 1 + m = (2 * K + m) + 1 by ring,
            gssLoop_succ f _ hc2, gssLoop_succ f _ hc2]
        have hw2 : (gssNext f (gssNext f a b).1 (gssNext f a b).2).2 -
            (gssNext f (gssNext f a b).1 (gssNext f a b).2).1 =
            ((gssNext f a b).2 - (gssNext f a b).1) / gr :=
          gssNext_width f _ _
        have hab2 : (gssNext f (gssNext f a b).1 (gssNext f a b).2).1 ≤
            (gssNext f (gssNext f a b).1 (gssNext f a b).2).2 :=
          gssNext_le f hab1
        apply ih m _ _ hab2
        have hsq : (gssNext f (gssNext f a b).1 (gssNext f a b).2).2 -
            (gssNext f (gssNext f a b).1 (gssNext f a b).2).1 = (b - a) / gr ^ 2 := by
          rw [hw2, hw1, div_div, sq]
        have hhalf : (b - a) / gr ^ 2 ≤ (b - a) / 2 :=
          div_le_div_of_nonneg_left (by linarith) (by norm_num) two_lt_gr_sq.le
        rw [hsq]
        have hdivK : (b - a) / gr ^ 2 / 2 ^ K ≤ (b - a) / 2 / 2 ^ K :=
          (div_le_div_right (by positivity)).mpr hhalf
        have heq : (b - a) / 2 / 2 ^ K = (b - a) / 2 ^ (K + 1) := by
          rw [div_div, ← pow_succ']
        refine hdivK.trans ?_
        rw [heq]
        exact h
      · rw [gssLoop_exit f _ hc2, gssLoop_exit f _ hc2]
    · rw [gssLoop_exit f _ hc1, gssLoop_exit f _ hc1]

/-! ## Claim C9: termination of both iterative searches -/

/-- C9: both loops terminate after a bounded number of iterations because
each iteration shrinks the bracket by a constant factor (1/2 for bisection,
1/gr per step — at least 1/2 every two steps — for golden-section search).
Formally, the fuel-indexed embeddings are invariant under any additional
fuel: bisection over `[0, max_days]` is stable beyond `bisFuel max_days`
iterations (and beyond exactly 12 iterations for the default
`max_days = 30`, matching the spec's ~12), and golden-section search over
`[a, b]` is stable beyond `gssFuel a b` iterations, each loop having
stopped with its bracket within tolerance. -/
theorem claim_C9 (f g : ℚ → ℚ) (md a b : ℚ) (hmd : 0 < md) (hab : a < b) :
    (∀ n, bisFuel md ≤ n → bisectLoop f n 0 md = bisectLoop f (bisFuel md) 0 md) ∧
    (∀ n, 12 ≤ n → bisectLoop f n 0 30 = bisectLoop f 12 0 30) ∧
    (∀ n, gssFuel a b ≤ n → gssLoop g n a b = gssLoop g (gssFuel a b) a b) := by
  refine ⟨?_, ?_, ?_⟩
  · intro n hn
    have h := bisectLoop_stable f (bisFuel md) (n - bisFuel md) 0 md
      (by simpa using bisFuel_spec hmd)
    rwa [Nat.add_sub_cancel' hn] at h
  · intro n hn
    have h := bisectLoop_stable f 12 (n - 12) 0 30 (by norm_num)
    rwa [Nat.add_sub_cancel' hn] at h
  · intro n hn
    have hgf : gssFuel a b = 2 * ((100 * (b - a)).num.toNat.log2 + 1) := rfl
    rw [hgf] at hn ⊢
    have h := gssLoop_stable g ((100 * (b - a)).num.toNat.log2 + 1)
      (n - 2 * ((100 * (b - a)).num.toNat.log2 + 1)) a b hab.le (gssFuel_spec hab)
    rwa [Nat.add_sub_cancel' hn] at h

/-- Witness for C9 with `f = g = id`, `max_days = 30` and the interval
`[0, 1]`. -/
theorem claim_C9_witness :
    (0:ℚ) < 30 ∧ (0:ℚ) < 1 ∧
    ((∀ n, bisFuel 30 ≤ n →
        bisectLoop (fun t => t) n 0 30 = bisectLoop (fun t => t) (bisFuel 30) 0 30) ∧
     (∀ n, 12 ≤ n →
        bisectLoop (fun t => t) n 0 30 = bisectLoop (fun t => t) 12 0 30) ∧
     (∀ n, gssFuel 0 1 ≤ n →
        gssLoop (fun t => t) n 0 1 = gssLoop (fun t => t) (gssFuel 0 1) 0 1)) :=
  ⟨by norm_num, by norm_num,
   claim_C9 (fun t => t) (fun t => t) 30 0 1 (by norm_num) (by norm_num)⟩

/-! ## Claim C5: the concrete forecast scenario -/

lemma x_used_eq : x_used = [3, 4, 5] := rfl

lemma y_used_eq : y_used = [6.1, 6.3, 6.4] := rfl

lemma forecasted_usage_eq : forecasted_usage = [6.4, 6.3, 6.1, 5.8, 5.4] := by
  rw [forecasted_usage, show List.range 5 = [0, 1, 2, 3, 4] from rfl,
    x_used_eq, y_used_eq]
  norm_num [newton_interpolation, hornerEval, newton_divided_diff, nddPasses,
    nddPass, nddStep, hornerAux, roundTo2, round_half_even, List.getD]

/-- C5 as amended: for history days [1..5] with the sample usages and the
3-point window [3,4,5] → [6.1,6.3,6.4], the forecast for days 6-10 is
`[6.4, 6.3, 6.1, 5.8, 5.4]`: a monotonically non-INCREASING sequence (the
fitted quadratic has negative curvature, so extrapolation bends downward,
below the linear trend), with every value ≥ 0. -/
theorem claim_C5 :
    forecasted_usage = [6.4, 6.3, 6.1, 5.8, 5.4] ∧
    List.Chain' (· ≥ ·) forecasted_usage ∧
    (∀ v ∈ forecasted_usage, 0 ≤ v) := by
  refine ⟨forecasted_usage_eq, ?_, ?_⟩
  · rw [forecasted_usage_eq]
    norm_num [List.chain'_cons]
  · rw [forecasted_usage_eq]
    intro v hv
    simp only [List.mem_cons, List.not_mem_nil, or_false] at hv
    rcases hv with rfl | rfl | rfl | rfl | rfl <;> norm_num

/-- Counterexample for C5 as stated: the forecast is strictly decreasing
(6.4 > 6.3 already at the first step), so it is not monotonically
non-decreasing, and every value lies below the claimed 6.5–6.9 range. -/
theorem claim_C5_cex :
    forecasted_usage = [6.4, 6.3, 6.1, 5.8, 5.4] ∧
    ¬ List.Chain' (· ≤ ·) forecasted_usage ∧
    (∀ v ∈ forecasted_usage, v < 6.5) := by
  refine ⟨forecasted_usage_eq, ?_, ?_⟩
  · rw [forecasted_usage_eq]
    norm_num [List.chain'_cons]
  · rw [forecasted_usage_eq]
    intro v hv
    simp only [List.mem_cons, List.not_mem_nil, or_false] at hv
    rcases hv with rfl | rfl | rfl | rfl | rfl <;> norm_num

/-! ## Newton interpolation mathematics (claims C3) -/

-- Divided difference of span `s` based at `i`, over the graph points
-- `(x i, y i), ..., (x (i+s), y (i+s))`.
def divDiff (x y : ℕ → ℚ) : ℕ → ℕ → ℚ
  | 0, i => y i
  | s + 1, i => (divDiff x y s (i + 1) - divDiff x y s i) / (x (i + s + 1) - x i)

-- Neville interpolant through the same points, evaluated at `t`.
def nevP (x y : ℕ → ℚ) (t : ℚ) : ℕ → ℕ → ℚ
  | 0, i => y i
  | s + 1, i => ((t - x i) * nevP x y t s (i + 1) -
      (t - x (i + s + 1)) * nevP x y t s i) / (x (i + s + 1) - x i)

-- The Newton basis product `(t - x i) ⋯ (t - x (i + s - 1))`.
def prodW (x : ℕ → ℚ) (t : ℚ) (i s : ℕ) : ℚ :=
  ∏ m in Finset.range s, (t - x (i + m))

lemma prodW_zero (x : ℕ → ℚ) (t : ℚ) (i : ℕ) : prodW x t i 0 = 1 := by
  simp [prodW]

lemma prodW_succ_right (x : ℕ → ℚ) (t : ℚ) (i s : ℕ) :
    prodW x t i (s + 1) = prodW x t i s * (t - x (i + s)) := by
  rw [prodW, prodW, Finset.prod_range_succ]

lemma prodW_succ_left (x : ℕ → ℚ) (t : ℚ) (i s : ℕ) :
    prodW x t i (s + 1) = (t - x i) * prodW x t (i + 1) s := by
  rw [prodW, prodW, Finset.prod_range_succ']
  rw [Finset.prod_congr rfl (fun m _ => by
    rw [show i + (m + 1) = i + 1 + m from by omega])]
  rw [mul_comm, show i + 0 = i from rfl]

lemma prodW_one (x : ℕ → ℚ) (t : ℚ) (i : ℕ) : prodW x t i 1 = t - x i := by
  rw [prodW, Finset.prod_range_one, Nat.add_zero]

-- The Neville interpolant reproduces every node value (needs the nodes in
-- the window to be pairwise distinct).
lemma nevP_node (x y : ℕ → ℚ) :
    ∀ (s i k : ℕ), i ≤ k → k ≤ i + s →
      (∀ a b, i ≤ a → a ≤ i + s → i ≤ b → b ≤ i + s → a ≠ b → x a ≠ x b) →
      nevP x y (x k) s i = y k := by
  intro s
  induction s with
  | zero =>
    intro i k h1 h2 _
    have hk : k = i := by omega
    subst hk
    rfl
  | succ s ih =>
    intro i k h1 h2 hx
    have hden : x (i + s + 1) - x i ≠ 0 :=
      sub_ne_zero.mpr (hx (i + s + 1) i (by omega) (by omega) (by omega) (by omega)
        (by omega))
    rw [nevP]
    by_cases hki : k = i
    · subst hki
      rw [ih k k le_rfl (by omega) (fun a b ha1 ha2 hb1 hb2 hne =>
        hx a b (by omega) (by omega) (by omega) (by omega) hne)]
      field_simp
      ring
    · by_cases hks : k = i + s + 1
      · rw [ih (i + 1) k (by omega) (by omega) (fun a b ha1 ha2 hb1 hb2 hne =>
          hx a b (by omega) (by omega) (by omega) (by omega) hne)]
        rw [hks, sub_self, zero_mul, sub_zero]
        rw [show x (i + s + 1) = x k from by rw [hks]] at hden ⊢
        field_simp
      · rw [ih (i + 1) k (by omega) (by omega) (fun a b ha1 ha2 hb1 hb2 hne =>
          hx a b (by omega) (by omega) (by omega) (by omega) hne),
          ih i k (by omega) (by omega) (fun a b ha1 ha2 hb1 hb2 hne =>
          hx a b (by omega) (by omega) (by omega) (by omega) hne)]
        field_simp
        ring

-- Joint Newton-form recurrences: adding the next node appends the term
-- `divDiff … * Newton basis product`, both when the node is appended on
-- the right (A, first conjunct) and on the left (B, second conjunct).
lemma nevP_newton (x y : ℕ → ℚ) (t : ℚ) :
    ∀ (s i : ℕ),
      (∀ a b, i ≤ a → a ≤ i + s + 1 → i ≤ b → b ≤ i + s + 1 → a ≠ b → x a ≠ x b) →
      nevP x y t (s + 1) i = nevP x y t s i +
        divDiff x y (s + 1) i * prodW x t i (s + 1) ∧
      nevP x y t (s + 1) i = nevP x y t s (i + 1) +
        divDiff x y (s + 1) i * prodW x t (i + 1) (s + 1) := by
  intro s
  induction s with
  | zero =>
    intro i hx
    have hden : x (i + 0 + 1) - x i ≠ 0 :=
      sub_ne_zero.mpr (hx (i + 0 + 1) i (by omega) (by omega) (by omega) (by omega)
        (by omega))
    constructor
    · rw [nevP, prodW_one]
      show _ = y i + divDiff x y 1 i * (t - x i)
      rw [show divDiff x y 1 i = (y (i + 1) - y i) / (x (i + 0 + 1) - x i) from rfl]
      show ((t - x i) * y (i + 1) - (t - x (i + 0 + 1)) * y i) / (x (i + 0 + 1) - x i) = _
      field_simp
      ring
    · rw [nevP, prodW_one]
      show _ = y (i + 1) + divDiff x y 1 i * (t - x (i + 1))
      rw [show divDiff x y 1 i = (y (i + 1) - y i) / (x (i + 0 + 1) - x i) from rfl]
      show ((t - x i) * y (i + 1) - (t - x (i + 0 + 1)) * y i) / (x (i + 0 + 1) - x i) = _
      rw [show i + 0 + 1 = i + 1 from rfl]
      field_simp
      ring
  | succ s ih =>
    intro i hx
    have hden : x (i + (s + 1) + 1) - x i ≠ 0 :=
      sub_ne_zero.mpr (hx (i + (s + 1) + 1) i (by omega) (by omega) (by omega)
        (by omega) (by omega))
    obtain ⟨hA1, _⟩ := ih (i + 1) (fun a b ha1 ha2 hb1 hb2 hne =>
      hx a b (by omega) (by omega) (by omega) (by omega) hne)
    obtain ⟨_, hB0⟩ := ih i (fun a b ha1 ha2 hb1 hb2 hne =>
      hx a b (by omega) (by omega) (by omega) (by omega) hne)
    have hdd : divDiff x y (s + 1 + 1) i =
        (divDiff x y (s + 1) (i + 1) - divDiff x y (s + 1) i) /
          (x (i + (s + 1) + 1) - x i) := rfl
    constructor
    · rw [nevP, hA1, hB0, hdd,
        show prodW x t i (s + 1 + 1) = (t - x i) * prodW x t (i + 1) (s + 1) from
          prodW_succ_left x t i (s + 1)]
      field_simp
      ring
    · rw [nevP, hA1, hB0, hdd,
        show prodW x t (i + 1) (s + 1 + 1) =
          prodW x t (i + 1) (s + 1) * (t - x (i + 1 + (s + 1))) from
          prodW_succ_right x t (i + 1) (s + 1),
        show i + 1 + (s + 1) = i + (s + 1) + 1 from by omega]
      field_simp
      ring

-- Telescoping the Newton step: the Neville interpolant over points
-- `0..n` equals the Newton-form sum of divided differences.
lemma nevP_sum (x y : ℕ → ℚ) (t : ℚ) :
    ∀ (n : ℕ), (∀ a b, a ≤ n → b ≤ n → a ≠ b → x a ≠ x b) →
      nevP x y t n 0 = ∑ k in Finset.range (n + 1),
        divDiff x y k 0 * prodW x t 0 k := by
  intro n
  induction n with
  | zero =>
    intro _
    rw [Finset.range_one, Finset.sum_singleton, prodW_zero]
    show y 0 = divDiff x y 0 0 * 1
    rw [show divDiff x y 0 0 = y 0 from rfl, mul_one]
  | succ n ih =>
    intro hx
    obtain ⟨hA, _⟩ := nevP_newton x y t n 0 (fun a b ha1 ha2 hb1 hb2 hne =>
      hx a b (by omega) (by omega) hne)
    rw [hA, ih (fun a b ha hb hne => hx a b (by omega) (by omega) hne)]
    rw [Finset.sum_range_succ (fun k => divDiff x y k 0 * prodW x t 0 k) (n + 1)]

/-! ## The in-place divided-difference table (source faithful) -/

-- Value of table cell `i` after the passes `1, ..., jd` have completed:
-- cell `i` holds the divided difference of span `min i jd` ending at `i`.
def tabVal (x y : ℕ → ℚ) (jd i : ℕ) : ℚ := divDiff x y (min i jd) (i - jd)

lemma tabVal_zero (x y : ℕ → ℚ) (i : ℕ) : tabVal x y 0 i = y i := by
  rw [tabVal, Nat.min_zero, Nat.sub_zero]
  rfl

lemma tabVal_of_le (x y : ℕ → ℚ) {jd i : ℕ} (h : i ≤ jd) :
    tabVal x y jd i = divDiff x y i 0 := by
  rw [tabVal, min_eq_left h, Nat.sub_eq_zero_of_le h]

lemma tabVal_rec (x y : ℕ → ℚ) (j i : ℕ) (hj : j + 1 ≤ i) :
    tabVal x y (j + 1) i =
      (tabVal x y j i - tabVal x y j (i - 1)) / (x i - x (i - (j + 1))) := by
  rw [tabVal, tabVal, tabVal,
    min_eq_right hj, min_eq_right (by omega : j ≤ i),
    min_eq_right (by omega : j ≤ i - 1)]
  rw [divDiff]
  rw [show i - (j + 1) + 1 = i - j from by omega,
    show i - (j + 1) + j + 1 = i from by omega,
    show i - 1 - j = i - (j + 1) from by omega]

lemma nddStep_length (x : List ℚ) (j : ℕ) (c : List ℚ) (i : ℕ) :
    (nddStep x j c i).length = c.length := by
  rw [nddStep, List.length_set]

-- Invariant of one inner pass `j` (with `m` steps remaining the cells
-- `≥ j + m` are updated, the cells `< j + m` still hold pass `j - 1`
-- values); afterwards every cell holds its pass-`j` value.
lemma nddPass_inv (x : List ℚ) (Y : ℕ → ℚ) (j : ℕ) (hj : 1 ≤ j) :
    ∀ (m : ℕ) (c : List ℚ), j + m ≤ c.length →
      (∀ i, i < j + m → c.getD i 0 = tabVal (fun k => x.getD k 0) Y (j - 1) i) →
      (∀ i, j + m ≤ i → i < c.length →
        c.getD i 0 = tabVal (fun k => x.getD k 0) Y j i) →
      (nddPass x j m c).length = c.length ∧
      (∀ i, i < c.length →
        (nddPass x j m c).getD i 0 = tabVal (fun k => x.getD k 0) Y j i) := by
  intro m
  induction m with
  | zero =>
    intro c hlen h1 h2
    refine ⟨rfl, fun i hi => ?_⟩
    by_cases hij : j ≤ i
    · exact h2 i (by omega) hi
    · have hv := h1 i (by omega)
      rw [tabVal_of_le _ _ (by omega : i ≤ j - 1)] at hv
      rw [show nddPass x j 0 c = c from rfl, hv,
        tabVal_of_le _ _ (by omega : i ≤ j)]
  | succ m ih =>
    intro c hlen h1 h2
    rw [show nddPass x j (m + 1) c = nddPass x j m (nddStep x j c (j + m)) from rfl]
    have hi0 : j + m < c.length := by omega
    have hval : (nddStep x j c (j + m)).getD (j + m) 0 =
        tabVal (fun k => x.getD k 0) Y j (j + m) := by
      rw [nddStep, getD_set_self hi0]
      rw [h1 (j + m) (by omega), h1 (j + m - 1) (by omega)]
      have hrec := tabVal_rec (fun k => x.getD k 0) Y (j - 1) (j + m)
        (by omega : (j - 1) + 1 ≤ j + m)
      rw [show j - 1 + 1 = j from by omega] at hrec
      rw [hrec]
    obtain ⟨hl, hv⟩ := ih (nddStep x j c (j + m))
      (by rw [nddStep_length]; omega)
      (fun i hi => by
        rw [nddStep, getD_set_ne (by omega : j + m ≠ i)]
        exact h1 i (by omega))
      (fun i hige hilt => by
        rw [nddStep_length] at hilt
        by_cases hieq : i = j + m
        · rw [hieq]; exact hval
        · rw [nddStep, getD_set_ne (by omega : j + m ≠ i)]
          exact h2 i (by omega) hilt)
    rw [nddStep_length] at hl
    exact ⟨hl, fun i hi => hv i (by rw [nddStep_length]; exact hi)⟩

-- Invariant of the outer pass loop.
lemma nddPasses_inv (x : List ℚ) (Y : ℕ → ℚ) (n : ℕ) :
    ∀ (p j : ℕ) (c : List ℚ), 1 ≤ j → j + p = n → c.length = n →
      (∀ i, i < n → c.getD i 0 = tabVal (fun k => x.getD k 0) Y (j - 1) i) →
      (nddPasses x n p j c).length = n ∧
      (∀ i, i < n → (nddPasses x n p j c).getD i 0 =
        tabVal (fun k => x.getD k 0) Y (j - 1 + p) i) := by
  intro p
  induction p with
  | zero =>
    intro j c hj hjp hlen h
    exact ⟨hlen, fun i hi => by rw [Nat.add_zero]; exact h i hi⟩
  | succ p ih =>
    intro j c hj hjp hlen h
    rw [show nddPasses x n (p + 1) j c =
      nddPasses x n p (j + 1) (nddPass x j (n - j) c) from rfl]
    obtain ⟨hl, hv⟩ := nddPass_inv x Y j hj (n - j) c
      (by omega)
      (fun i hi => h i (by omega))
      (fun i hige hilt => by omega)
    obtain ⟨hl2, hv2⟩ := ih (j + 1) (nddPass x j (n - j) c) (by omega) (by omega)
      (hl.trans hlen)
      (fun i hi => by
        rw [show j + 1 - 1 = j from rfl]
        exact hv i (by rw [hlen]; exact hi))
    refine ⟨hl2, fun i hi => ?_⟩
    rw [hv2 i hi, show j + 1 - 1 + p = j - 1 + (p + 1) from by omega]

-- The output coefficients of `newton_divided_diff` are the divided
-- differences anchored at index 0.
lemma newton_divided_diff_spec (x y : List ℚ) (hlen : y.length = x.length)
    (hn1 : 1 ≤ x.length) :
    (newton_divided_diff x y).length = x.length ∧
    ∀ i, i < x.length → (newton_divided_diff x y).getD i 0 =
      divDiff (fun k => x.getD k 0) (fun k => y.getD k 0) i 0 := by
  rw [newton_divided_diff]
  obtain ⟨h1, h2⟩ := nddPasses_inv x (fun k => y.getD k 0) x.length
    (x.length - 1) 1 y le_rfl (by omega) hlen
    (fun i hi => by rw [show (1:ℕ) - 1 = 0 from rfl, tabVal_zero])
  refine ⟨h1, fun i hi => ?_⟩
  rw [h2 i hi, show (1:ℕ) - 1 + (x.length - 1) = x.length - 1 from by omega,
    tabVal_of_le _ _ (by omega : i ≤ x.length - 1)]

-- The Horner loop evaluates the Newton form: starting accumulator `r`
-- contributes `r`-times-the-full-basis-product plus the Newton sum of the
-- first `m` coefficients.
lemma hornerAux_eq (coef x : List ℚ) (t : ℚ) :
    ∀ (m : ℕ) (r : ℚ), hornerAux coef x t m r =
      r * prodW (fun k => x.getD k 0) t 0 m +
      ∑ i in Finset.range m, coef.getD i 0 * prodW (fun k => x.getD k 0) t 0 i := by
  intro m
  induction m with
  | zero =>
    intro r
    rw [show hornerAux coef x t 0 r = r from rfl, prodW_zero, mul_one,
      Finset.range_zero, Finset.sum_empty, add_zero]
  | succ m ih =>
    intro r
    rw [show hornerAux coef x t (m + 1) r =
      hornerAux coef x t m (r * (t - x.getD m 0) + coef.getD m 0) from rfl]
    rw [ih,
      Finset.sum_range_succ
        (fun i => coef.getD i 0 * prodW (fun k => x.getD k 0) t 0 i) m,
      prodW_succ_right (fun k => x.getD k 0) t 0 m]
    simp only [Nat.zero_add]
    ring

/-! ## Claim C3: interpolation is exact at the training points -/

/-- C3 as amended: for equal-length lists with pairwise-distinct `xs`, the
Newton polynomial built by `newton_divided_diff` and evaluated by the Horner
loop reproduces `ys[i]` EXACTLY at every training point `xs[i]`; the full
`newton_interpolation` then returns `max 0 (round₂ ys[i])` — equal to
`ys[i]` precisely when `ys[i]` is a non-negative two-decimal value, but not
in general (see the counterexample for the clamping). -/
theorem claim_C3 (x y : List ℚ) (hlen : y.length = x.length)
    (hx : ∀ a b, a < x.length → b < x.length → a ≠ b →
      x.getD a 0 ≠ x.getD b 0)
    (i : ℕ) (hi : i < x.length) :
    hornerEval x y (x.getD i 0) = y.getD i 0 ∧
    newton_interpolation x y (x.getD i 0) = max 0 (roundTo2 (y.getD i 0)) := by
  obtain ⟨m, hm⟩ : ∃ m, x.length = m + 1 := ⟨x.length - 1, by omega⟩
  obtain ⟨hclen, hcval⟩ := newton_divided_diff_spec x y hlen (by omega)
  have hmain : hornerEval x y (x.getD i 0) = y.getD i 0 := by
    rw [hornerEval, hclen, hm, show m + 1 - 1 = m from rfl, hornerAux_eq,
      hcval m (by omega)]
    rw [Finset.sum_congr rfl (fun k hk => by
      rw [hcval k (by
        have := Finset.mem_range.mp hk
        omega)])]
    rw [add_comm,
      ← Finset.sum_range_succ (fun k =>
        divDiff (fun k' => x.getD k' 0) (fun k' => y.getD k' 0) k 0 *
        prodW (fun k' => x.getD k' 0) (x.getD i 0) 0 k) m,
      ← nevP_sum (fun k' => x.getD k' 0) (fun k' => y.getD k' 0) (x.getD i 0) m
        (fun a b ha hb hne => hx a b (by omega) (by omega) hne)]
    exact nevP_node (fun k' => x.getD k' 0) (fun k' => y.getD k' 0) m 0 i
      (by omega) (by omega)
      (fun a b ha1 ha2 hb1 hb2 hne => hx a b (by omega) (by omega) hne)
  exact ⟨hmain, by rw [newton_interpolation, hmain]⟩

/-- Witness for C3 at `xs = [0, 1]`, `ys = [10, 20]`, `i = 0`. -/
theorem claim_C3_witness :
    hornerEval [0, 1] [10, 20] (([0, 1] : List ℚ).getD 0 0) =
      ([10, 20] : List ℚ).getD 0 0 ∧
    newton_interpolation [0, 1] [10, 20] (([0, 1] : List ℚ).getD 0 0) =
      max 0 (roundTo2 (([10, 20] : List ℚ).getD 0 0)) :=
  claim_C3 [0, 1] [10, 20] rfl
    (by
      intro a b ha hb hne
      have ha2 : a < 2 := by simpa using ha
      have hb2 : b < 2 := by simpa using hb
      interval_cases a <;> interval_cases b <;>
        first
          | exact absurd rfl hne
          | norm_num [List.getD])
    0 (by norm_num)

/-- Counterexample for C3 as stated about the full evaluator: at the
training point `xs[0] = 0` with `ys[0] = -5`, `newton_interpolation`
returns `0` (the clamp), which is `5` away from `ys[0]` — far beyond any
floating tolerance. -/
theorem claim_C3_cex :
    newton_interpolation [0, 1] [-5, 1] 0 = 0 ∧
    ¬(|(0:ℚ) - (-5)| ≤ 1/100) := by
  constructor
  · norm_num [newton_interpolation, hornerEval, newton_divided_diff, nddPasses,
      nddPass, nddStep, hornerAux, roundTo2, round_half_even, List.getD]
  · norm_num
